import Mathlib

/-!
Shallow embedding of the brainrot video generator (the two revisions
concatenated in src/index.js, plus the revision src/unnamed/part_000).

JS numbers are modelled by `ℚ` (exact arithmetic); JS strings by
`String` / `List Char`; values that can be `undefined` by `Option`.
Thrown exceptions are modelled by `Except`.
-/

namespace Brainrot

/-- Model of the JS `\s` character class (also the class used by
`String.prototype.trim`). -/
def isWS (c : Char) : Bool := c.isWhitespace

/-- Model of JS `String.prototype.trim` on the character list: drop
whitespace from both ends. -/
def trimList (l : List Char) : List Char :=
  (l.dropWhile isWS).rdropWhile isWS

/-- Splitting on runs of whitespace, i.e. `split(/\s+/)` for a nonempty
string with no leading whitespace (the program only applies this after
`trim`; a leading whitespace run would contribute a leading `""` in JS,
which cannot occur on trimmed input). -/
def splitWS : List Char → List (List Char)
  | [] => []
  | c :: cs =>
    if isWS c then splitWS cs
    else
      match cs with
      | [] => [[c]]
      | d :: _ =>
        if isWS d then [c] :: splitWS cs
        else
          match splitWS cs with
          | [] => [[c]]
          | w :: ws => (c :: w) :: ws

/-- Model of `s.trim().split(/\s+/)`.  In JS, splitting the empty string
on `/\s+/` yields `[""]` (a one-element array holding the empty string),
never the empty array. -/
def jsTrimSplit (l : List Char) : List (List Char) :=
  let t := trimList l
  if t.isEmpty then [[]] else splitWS t

/-- `words.join(' ')` on character lists. -/
def spaceJoin : List (List Char) → List Char
  | [] => []
  | [w] => w
  | w :: ws => w ++ ' ' :: spaceJoin ws

/-- One iteration structure of the chunking for-loop
`for (let i = 0; i < totalWords; i += maxWordsPerChunk)`:
the window `words.slice(i, i + W)` followed by the remaining windows.
`fuel` bounds the number of iterations; the window size in the program is
a positive constant, so `l.length` iterations always suffice. -/
def sliceChunksGo {α : Type} (W : Nat) : Nat → List α → List (List α)
  | _, [] => []
  | 0, _ :: _ => []
  | fuel + 1, l => l.take W :: sliceChunksGo W fuel (l.drop W)

/-- The list of windows `words.slice(i, i + W)` for `i = 0, W, 2W, ...`. -/
def sliceChunks {α : Type} (W : Nat) (l : List α) : List (List α) :=
  sliceChunksGo W l.length l

/-- One unit of Whisper transcription output (a `verbose_json` segment):
start time, end time, raw text. -/
structure Segment where
  start : ℚ
  «end» : ℚ
  text : String
deriving DecidableEq

/-- One emitted subtitle chunk: the loop variables at the moment the SRT
block for `subtitleIndex` is appended to `srtContent`. -/
structure Chunk where
  index : Nat
  start : ℚ
  «end» : ℚ
  text : String
deriving DecidableEq

/-- The inner chunking loop of `generateSubtitles`, one recursion step per
window, carrying `currentTime` and the global `subtitleIndex`:
chunk duration is `segDuration * (chunkWordCount / totalWords)`, the chunk
starts at the running cursor, and the cursor advances to `chunkEnd`. -/
def chunkLoop (segDuration : ℚ) (totalWords : Nat) :
    List (List (List Char)) → ℚ → Nat → List Chunk
  | [], _, _ => []
  | chunkWords :: rest, currentTime, subtitleIndex =>
    let chunkWordCount := chunkWords.length
    let chunkDuration := segDuration * ((chunkWordCount : ℚ) / (totalWords : ℚ))
    let chunkEnd := currentTime + chunkDuration
    { index := subtitleIndex, start := currentTime, «end» := chunkEnd,
      text := String.mk (spaceJoin chunkWords) } ::
      chunkLoop segDuration totalWords rest chunkEnd (subtitleIndex + 1)

/-- Chunks emitted for one transcription segment (the `segments.forEach`
callback body): split the trimmed text into words, return early if there
are no words, otherwise walk the word windows.  `W` is the configured
`maxWordsPerChunk` (4 in index.js, 7 in part_000). -/
def segmentChunks (W : Nat) (segment : Segment) (subtitleIndex : Nat) : List Chunk :=
  let words := jsTrimSplit segment.text.data
  let totalWords := words.length
  if totalWords = 0 then []
  else
    chunkLoop (segment.«end» - segment.start) totalWords (sliceChunks W words)
      segment.start subtitleIndex

/-- All chunks of the draft caption track: segments processed in order with
the global `subtitleIndex` threaded through (each emitted chunk increments
it by one). -/
def segmentsChunks (W : Nat) : List Segment → Nat → List Chunk
  | [], _ => []
  | seg :: rest, subtitleIndex =>
    let cs := segmentChunks W seg subtitleIndex
    cs ++ segmentsChunks W rest (subtitleIndex + cs.length)

/-- `maxWordsPerChunk` in the chunking revision of index.js. -/
def maxWordsPerChunk : Nat := 4

/-- `maxWordsPerChunk` in src/unnamed/part_000. -/
def maxWordsPerChunkPart0 : Nat := 7

/-- The draft caption track of `generateSubtitles` in index.js:
`subtitleIndex` starts at 1. -/
def draftTrack (segments : List Segment) : List Chunk :=
  segmentsChunks maxWordsPerChunk segments 1

/-! ### Basic facts about the word splitter -/

theorem splitWS_eq_nil_iff (l : List Char) :
    splitWS l = [] ↔ ∀ c ∈ l, isWS c = true := by
  induction l with
  | nil => simp [splitWS]
  | cons c cs ih =>
    by_cases hc : isWS c = true
    · simp only [splitWS, hc, if_true]
      rw [ih]
      constructor
      · intro h d hd
        rcases List.mem_cons.1 hd with rfl | hd
        · exact hc
        · exact h d hd
      · intro h d hd
        exact h d (List.mem_cons_of_mem _ hd)
    · constructor
      · intro h
        exfalso
        simp only [splitWS, hc, if_false] at h
        cases cs with
        | nil => simp at h
        | cons d cs' =>
          by_cases hd : isWS d = true
          · simp [hd] at h
          · simp only [hd, if_false] at h
            cases hsp : splitWS (d :: cs') with
            | nil => rw [hsp] at h; simp at h
            | cons w ws => rw [hsp] at h; simp at h
      · intro h
        exact absurd (h c (List.mem_cons_self c cs)) (by simpa using hc)

theorem splitWS_ne_nil_of_head (c : Char) (cs : List Char) (hc : isWS c = false) :
    splitWS (c :: cs) ≠ [] := by
  rw [Ne, splitWS_eq_nil_iff]
  intro h
  exact absurd (h c (List.mem_cons_self c cs)) (by simp [hc])

theorem trimList_getLast_not_WS (l : List Char) (h : trimList l ≠ []) :
    isWS ((trimList l).getLast h) = false := by
  have := List.rdropWhile_last_not isWS (l.dropWhile isWS) h
  simpa using this

theorem trimList_head_not_WS (l : List Char) (h : trimList l ≠ []) :
    isWS ((trimList l).head h) = false := by
  have hpre : trimList l <+: l.dropWhile isWS := List.rdropWhile_prefix isWS _
  have hdw : l.dropWhile isWS ≠ [] := by
    intro h0
    rcases hpre with ⟨t, ht⟩
    rw [h0] at ht
    exact h (List.append_eq_nil.1 ht).1
  rw [hpre.head h]
  exact List.head_dropWhile_not isWS l _

theorem jsTrimSplit_ne_nil (l : List Char) : jsTrimSplit l ≠ [] := by
  unfold jsTrimSplit
  by_cases h : (trimList l).isEmpty
  · simp [h]
  · rw [if_neg h, Ne, splitWS_eq_nil_iff]
    intro hall
    have hne : trimList l ≠ [] := by
      intro h0
      rw [h0] at h
      simp [List.isEmpty] at h
    have hlast := trimList_getLast_not_WS l hne
    exact absurd (hall _ (List.getLast_mem hne)) (by simp [hlast])

/-! ### Facts about the window slicing -/

theorem sliceChunksGo_flatten {α : Type} (W : Nat) (hW : 1 ≤ W) :
    ∀ (fuel : Nat) (l : List α), l.length ≤ fuel → (sliceChunksGo W fuel l).flatten = l := by
  intro fuel
  induction fuel with
  | zero =>
    intro l hl
    cases l with
    | nil => rfl
    | cons x xs => simp at hl
  | succ fuel ih =>
    intro l hl
    cases l with
    | nil => rfl
    | cons x xs =>
      show (List.take W (x :: xs) :: sliceChunksGo W fuel (List.drop W (x :: xs))).flatten
          = x :: xs
      rw [List.flatten_cons,
        ih _ (by simp only [List.length_drop, List.length_cons] at hl ⊢; omega)]
      exact List.take_append_drop W (x :: xs)

theorem sliceChunks_flatten {α : Type} (W : Nat) (hW : 1 ≤ W) (l : List α) :
    (sliceChunks W l).flatten = l :=
  sliceChunksGo_flatten W hW l.length l le_rfl

theorem sliceChunksGo_ne_nil_mem {α : Type} (W : Nat) (hW : 1 ≤ W) :
    ∀ (fuel : Nat) (l : List α), [] ∉ sliceChunksGo W fuel l := by
  intro fuel
  induction fuel with
  | zero =>
    intro l
    cases l with
    | nil => simp [sliceChunksGo]
    | cons x xs => simp [sliceChunksGo]
  | succ fuel ih =>
    intro l
    cases l with
    | nil => simp [sliceChunksGo]
    | cons x xs =>
      show [] ∉ List.take W (x :: xs) :: sliceChunksGo W fuel (List.drop W (x :: xs))
      intro hmem
      rcases List.mem_cons.1 hmem with h | h
      · have := List.take_eq_nil_iff.1 h.symm
        rcases this with h0 | h0
        · omega
        · exact List.cons_ne_nil x xs h0
      · exact ih _ h

theorem sliceChunks_ne_nil_mem {α : Type} (W : Nat) (hW : 1 ≤ W) (l : List α) :
    [] ∉ sliceChunks W l :=
  sliceChunksGo_ne_nil_mem W hW l.length l

theorem sliceChunksGo_length {α : Type} (W : Nat) (hW : 1 ≤ W) :
    ∀ (fuel : Nat) (l : List α), l.length ≤ fuel → l ≠ [] →
      (sliceChunksGo W fuel l).length = (l.length - 1) / W + 1 := by
  intro fuel
  induction fuel with
  | zero =>
    intro l hl hne
    cases l with
    | nil => exact absurd rfl hne
    | cons x xs => simp at hl
  | succ fuel ih =>
    intro l hl hne
    cases l with
    | nil => exact absurd rfl hne
    | cons x xs =>
      show (List.take W (x :: xs) :: sliceChunksGo W fuel (List.drop W (x :: xs))).length
          = ((x :: xs).length - 1) / W + 1
      rw [List.length_cons]
      by_cases hdrop : List.drop W (x :: xs) = []
      · rw [hdrop]
        have hlen : xs.length + 1 ≤ W := by
          have := List.drop_eq_nil_iff.1 hdrop
          simpa using this
        have h1 : xs.length / W = 0 := Nat.div_eq_of_lt (by omega)
        simp [sliceChunksGo, h1]
      · have hlenW : W < (x :: xs).length := by
          by_contra hcon
          exact hdrop (List.drop_eq_nil_iff.2 (by omega))
        rw [ih _ (by simp only [List.length_drop]; simp at hl ⊢; omega) hdrop]
        rw [List.length_drop]
        have key : ((x :: xs).length - 1) / W = ((x :: xs).length - W - 1) / W + 1 := by
          have h2 : (x :: xs).length - 1 = ((x :: xs).length - W - 1) + W := by omega
          rw [h2, Nat.add_div_right _ (by omega)]
        omega

theorem sliceChunks_length {α : Type} (W : Nat) (hW : 1 ≤ W) (l : List α) (hl : l ≠ []) :
    (sliceChunks W l).length = (l.length - 1) / W + 1 :=
  sliceChunksGo_length W hW l.length l le_rfl hl

theorem sliceChunks_sum_length {α : Type} (W : Nat) (hW : 1 ≤ W) (l : List α) :
    ((sliceChunks W l).map List.length).sum = l.length := by
  rw [← List.length_flatten, sliceChunks_flatten W hW]

/-! ### Facts about the chunking loop -/

theorem chunkLoop_length (dur : ℚ) (N : Nat) :
    ∀ (ws : List (List (List Char))) (t : ℚ) (i : Nat),
      (chunkLoop dur N ws t i).length = ws.length := by
  intro ws
  induction ws with
  | nil => intro t i; rfl
  | cons w rest ih => intro t i; simp [chunkLoop, ih]

theorem chunkLoop_map_index (dur : ℚ) (N : Nat) :
    ∀ (ws : List (List (List Char))) (t : ℚ) (i : Nat),
      (chunkLoop dur N ws t i).map Chunk.index = List.range' i ws.length := by
  intro ws
  induction ws with
  | nil => intro t i; rfl
  | cons w rest ih =>
    intro t i
    rw [List.length_cons, List.range'_succ]
    simp [chunkLoop, ih]

theorem chunkLoop_get_start_end (dur : ℚ) (N : Nat) :
    ∀ (ws : List (List (List Char))) (t : ℚ) (i : Nat) (k : Nat) (hk : k < ws.length),
      ((chunkLoop dur N ws t i).get ⟨k, by rw [chunkLoop_length]; exact hk⟩).«end»
          - ((chunkLoop dur N ws t i).get ⟨k, by rw [chunkLoop_length]; exact hk⟩).start
        = dur * (((ws.get ⟨k, hk⟩).length : ℚ) / (N : ℚ)) := by
  intro ws
  induction ws with
  | nil => intro t i k hk; exact absurd hk (by simp)
  | cons w rest ih =>
    intro t i k hk
    cases k with
    | zero => simp [chunkLoop]
    | succ k =>
      have hk' : k < rest.length := by simpa using hk
      simpa [chunkLoop] using ih _ (i + 1) k hk'

theorem chunkLoop_get_text (dur : ℚ) (N : Nat) :
    ∀ (ws : List (List (List Char))) (t : ℚ) (i : Nat),
      (chunkLoop dur N ws t i).map Chunk.text
        = ws.map (fun w => String.mk (spaceJoin w)) := by
  intro ws
  induction ws with
  | nil => intro t i; rfl
  | cons w rest ih => intro t i; simp [chunkLoop, ih]

theorem chunkLoop_head_start (dur : ℚ) (N : Nat) :
    ∀ (ws : List (List (List Char))) (t : ℚ) (i : Nat) (h : 0 < ws.length),
      ((chunkLoop dur N ws t i).get ⟨0, by rw [chunkLoop_length]; exact h⟩).start = t := by
  intro ws
  cases ws with
  | nil => intro t i h; exact absurd h (by simp)
  | cons w rest => intro t i h; rfl

theorem chunkLoop_chain (dur : ℚ) (N : Nat) :
    ∀ (ws : List (List (List Char))) (t : ℚ) (i : Nat) (k : Nat) (hk : k + 1 < ws.length),
      ((chunkLoop dur N ws t i).get
          ⟨k + 1, by rw [chunkLoop_length]; exact hk⟩).start
        = ((chunkLoop dur N ws t i).get
          ⟨k, by rw [chunkLoop_length]; omega⟩).«end» := by
  intro ws
  induction ws with
  | nil => intro t i k hk; exact absurd hk (by simp)
  | cons w rest ih =>
    intro t i k hk
    cases k with
    | zero =>
      have hrest : 0 < rest.length := by simpa using hk
      cases rest with
      | nil => simp at hrest
      | cons w' rest' => simp [chunkLoop]
    | succ k =>
      have hk' : k + 1 < rest.length := by simpa using hk
      simpa [chunkLoop] using ih _ (i + 1) k hk'

theorem chunkLoop_ne_nil (dur : ℚ) (N : Nat) (ws : List (List (List Char))) (t : ℚ)
    (i : Nat) (hws : ws ≠ []) : chunkLoop dur N ws t i ≠ [] := by
  cases ws with
  | nil => exact absurd rfl hws
  | cons w rest => simp [chunkLoop]

theorem chunkLoop_getElem?_duration (dur : ℚ) (N : Nat) :
    ∀ (ws : List (List (List Char))) (t : ℚ) (i : Nat) (k : Nat) (w : List (List Char))
      (c : Chunk), ws[k]? = some w → (chunkLoop dur N ws t i)[k]? = some c →
      c.«end» - c.start = dur * ((w.length : ℚ) / (N : ℚ)) := by
  intro ws
  induction ws with
  | nil => intro t i k w c hw hc; simp at hw
  | cons w0 rest ih =>
    intro t i k w c hw hc
    cases k with
    | zero =>
      simp only [List.getElem?_cons_zero, Option.some_inj] at hw
      simp only [chunkLoop, List.getElem?_cons_zero, Option.some_inj] at hc
      subst hw
      rw [← hc]
      ring
    | succ k =>
      simp only [List.getElem?_cons_succ] at hw
      simp only [chunkLoop, List.getElem?_cons_succ] at hc
      exact ih _ (i + 1) k w c hw hc

theorem chunkLoop_getElem?_zero_start (dur : ℚ) (N : Nat)
    (ws : List (List (List Char))) (t : ℚ) (i : Nat) (c : Chunk)
    (hc : (chunkLoop dur N ws t i)[0]? = some c) : c.start = t := by
  cases ws with
  | nil => simp [chunkLoop] at hc
  | cons w rest =>
    simp only [chunkLoop, List.getElem?_cons_zero, Option.some_inj] at hc
    rw [← hc]

theorem chunkLoop_getElem?_chain (dur : ℚ) (N : Nat) :
    ∀ (ws : List (List (List Char))) (t : ℚ) (i : Nat) (k : Nat) (c c' : Chunk),
      (chunkLoop dur N ws t i)[k]? = some c →
      (chunkLoop dur N ws t i)[k + 1]? = some c' →
      c'.start = c.«end» := by
  intro ws
  induction ws with
  | nil => intro t i k c c' hc hc'; simp [chunkLoop] at hc
  | cons w0 rest ih =>
    intro t i k c c' hc hc'
    cases k with
    | zero =>
      simp only [chunkLoop, List.getElem?_cons_zero, Option.some_inj] at hc
      simp only [chunkLoop, List.getElem?_cons_succ] at hc'
      have := chunkLoop_getElem?_zero_start dur N rest _ (i + 1) c' hc'
      rw [this, ← hc]
    | succ k =>
      simp only [chunkLoop, List.getElem?_cons_succ] at hc hc'
      exact ih _ (i + 1) k c c' hc hc'

theorem chunkLoop_getElem?_le_start (dur : ℚ) (hdur : 0 ≤ dur) (N : Nat) :
    ∀ (ws : List (List (List Char))) (t : ℚ) (i : Nat) (k : Nat) (c : Chunk),
      (chunkLoop dur N ws t i)[k]? = some c → t ≤ c.start := by
  intro ws
  induction ws with
  | nil => intro t i k c hc; simp [chunkLoop] at hc
  | cons w0 rest ih =>
    intro t i k c hc
    cases k with
    | zero =>
      simp only [chunkLoop, List.getElem?_cons_zero, Option.some_inj] at hc
      rw [← hc]
    | succ k =>
      simp only [chunkLoop, List.getElem?_cons_succ] at hc
      have hstep : t ≤ t + dur * ((w0.length : ℚ) / (N : ℚ)) :=
        le_add_of_nonneg_right
          (mul_nonneg hdur (div_nonneg (by positivity) (by positivity)))
      exact le_trans hstep (ih _ (i + 1) k c hc)

theorem chunkLoop_getElem?_start_mono (dur : ℚ) (hdur : 0 ≤ dur) (N : Nat) :
    ∀ (ws : List (List (List Char))) (t : ℚ) (i : Nat) (j k : Nat) (cj ck : Chunk),
      j ≤ k → (chunkLoop dur N ws t i)[j]? = some cj →
      (chunkLoop dur N ws t i)[k]? = some ck → cj.start ≤ ck.start := by
  intro ws
  induction ws with
  | nil => intro t i j k cj ck hjk hj hk; simp [chunkLoop] at hj
  | cons w0 rest ih =>
    intro t i j k cj ck hjk hj hk
    cases j with
    | zero =>
      have h0 : cj.start = t := chunkLoop_getElem?_zero_start dur N _ t i cj hj
      rw [h0]
      exact chunkLoop_getElem?_le_start dur hdur N _ t i k ck hk
    | succ j =>
      cases k with
      | zero => omega
      | succ k =>
        simp only [chunkLoop, List.getElem?_cons_succ] at hj hk
        exact ih _ (i + 1) j k cj ck (by omega) hj hk

theorem chunkLoop_getLast_end (dur : ℚ) (N : Nat) :
    ∀ (ws : List (List (List Char))) (t : ℚ) (i : Nat) (hws : ws ≠ []),
      ((chunkLoop dur N ws t i).getLast (chunkLoop_ne_nil dur N ws t i hws)).«end»
        = t + dur * ((((ws.map List.length).sum : Nat) : ℚ) / (N : ℚ)) := by
  intro ws
  induction ws with
  | nil => intro t i hws; exact absurd rfl hws
  | cons w0 rest ih =>
    intro t i hws
    cases rest with
    | nil =>
      simp [chunkLoop, List.getLast_singleton]
    | cons w1 rest' =>
      have hrest : (w1 :: rest') ≠ [] := List.cons_ne_nil w1 rest'
      have hcl : chunkLoop dur N (w1 :: rest') (t + dur * ((w0.length : ℚ) / (N : ℚ)))
          (i + 1) ≠ [] := chunkLoop_ne_nil dur N _ _ _ hrest
      calc ((chunkLoop dur N (w0 :: w1 :: rest') t i).getLast _).«end»
          = ((chunkLoop dur N (w1 :: rest')
              (t + dur * ((w0.length : ℚ) / (N : ℚ))) (i + 1)).getLast hcl).«end» :=
            congrArg Chunk.«end» (List.getLast_cons hcl)
        _ = t + dur * ((w0.length : ℚ) / (N : ℚ))
            + dur * (((((w1 :: rest').map List.length).sum : Nat) : ℚ) / (N : ℚ)) :=
            ih _ (i + 1) hrest
        _ = t + dur
            * ((((( w0 :: w1 :: rest').map List.length).sum : Nat) : ℚ) / (N : ℚ)) := by
            simp only [List.map_cons, List.sum_cons]
            push_cast
            ring

theorem biUnion_icc_cons (c : Chunk) (cl : List Chunk) :
    (⋃ x ∈ c :: cl, Set.Icc x.start x.«end»)
      = Set.Icc c.start c.«end» ∪ ⋃ x ∈ cl, Set.Icc x.start x.«end» := by
  simp [List.mem_cons, Set.iUnion_iUnion_eq_or_left]

theorem chunkLoop_cons_eq (dur : ℚ) (N : Nat) (w0 : List (List Char))
    (rest : List (List (List Char))) (t : ℚ) (i : Nat) :
    chunkLoop dur N (w0 :: rest) t i
      = Chunk.mk i t (t + dur * ((w0.length : ℚ) / (N : ℚ))) (String.mk (spaceJoin w0))
        :: chunkLoop dur N rest (t + dur * ((w0.length : ℚ) / (N : ℚ))) (i + 1) := rfl

theorem chunkLoop_biUnion (dur : ℚ) (hdur : 0 ≤ dur) (N : Nat) :
    ∀ (ws : List (List (List Char))) (t : ℚ) (i : Nat), ws ≠ [] →
      (⋃ c ∈ chunkLoop dur N ws t i, Set.Icc c.start c.«end»)
        = Set.Icc t (t + dur * ((((ws.map List.length).sum : Nat) : ℚ) / (N : ℚ))) := by
  intro ws
  induction ws with
  | nil => intro t i hws; exact absurd rfl hws
  | cons w0 rest ih =>
    intro t i hws
    have hd : (0 : ℚ) ≤ dur * ((w0.length : ℚ) / (N : ℚ)) :=
      mul_nonneg hdur (div_nonneg (by positivity) (by positivity))
    rw [chunkLoop_cons_eq, biUnion_icc_cons]
    cases rest with
    | nil =>
      simp only [chunkLoop, List.not_mem_nil, Set.iUnion_of_empty, Set.iUnion_empty,
        Set.union_empty]
      norm_num
    | cons w1 rest' =>
      have hrest : (w1 :: rest') ≠ [] := List.cons_ne_nil w1 rest'
      have hsum : (0 : ℚ) ≤ dur
          * (((((w1 :: rest').map List.length).sum : Nat) : ℚ) / (N : ℚ)) :=
        mul_nonneg hdur (div_nonneg (by positivity) (by positivity))
      rw [ih _ (i + 1) hrest]
      rw [Set.Icc_union_Icc_eq_Icc (le_add_of_nonneg_right hd)
        (le_add_of_nonneg_right hsum)]
      congr 1
      simp only [List.map_cons, List.sum_cons]
      push_cast
      ring

theorem chunkLoop_map_duration (dur : ℚ) (N : Nat) :
    ∀ (ws : List (List (List Char))) (t : ℚ) (i : Nat),
      (chunkLoop dur N ws t i).map (fun c => c.«end» - c.start)
        = ws.map (fun w => dur * ((w.length : ℚ) / (N : ℚ))) := by
  intro ws
  induction ws with
  | nil => intro t i; rfl
  | cons w0 rest ih =>
    intro t i
    simp only [chunkLoop, List.map_cons, ih]
    congr 1
    ring

theorem chunkLoop_map_start_chain (dur : ℚ) (N : Nat) :
    ∀ (ws : List (List (List Char))) (t : ℚ) (i : Nat), ws ≠ [] →
      (chunkLoop dur N ws t i).map Chunk.start
        = t :: ((chunkLoop dur N ws t i).map Chunk.«end»).dropLast := by
  intro ws
  induction ws with
  | nil => intro t i hws; exact absurd rfl hws
  | cons w0 rest ih =>
    intro t i hws
    cases rest with
    | nil => rfl
    | cons w1 rest' =>
      rw [chunkLoop_cons_eq, List.map_cons, List.map_cons,
        ih _ (i + 1) (List.cons_ne_nil w1 rest')]
      have hne : List.map Chunk.«end»
          (chunkLoop dur N (w1 :: rest') (t + dur * ((w0.length : ℚ) / (N : ℚ)))
            (i + 1)) ≠ [] := by
        simp only [ne_eq, List.map_eq_nil_iff]
        exact chunkLoop_ne_nil dur N _ _ _ (List.cons_ne_nil w1 rest')
      rw [List.dropLast_cons_of_ne_nil hne]

/-- The guard `totalWords === 0` of `generateSubtitles` can never fire, because in
JS splitting even the empty string on `/\s+/` yields a one-element array. -/
theorem segmentChunks_eq (W : Nat) (seg : Segment) (i : Nat) :
    segmentChunks W seg i
      = chunkLoop (seg.«end» - seg.start) (jsTrimSplit seg.text.data).length
          (sliceChunks W (jsTrimSplit seg.text.data)) seg.start i := by
  simp only [segmentChunks]
  rw [if_neg (fun h0 => jsTrimSplit_ne_nil seg.text.data (List.length_eq_zero.1 h0))]

theorem jsTrimSplit_length_pos (l : List Char) : 0 < (jsTrimSplit l).length :=
  List.length_pos.2 (jsTrimSplit_ne_nil l)

theorem sliceChunks_ne_nil {α : Type} (W : Nat) (hW : 1 ≤ W) (l : List α) (hl : l ≠ []) :
    sliceChunks W l ≠ [] := by
  intro h0
  have := sliceChunks_length W hW l hl
  rw [h0] at this
  simp at this

theorem segmentChunks_length (W : Nat) (hW : 1 ≤ W) (seg : Segment) (i : Nat) :
    (segmentChunks W seg i).length
      = ((jsTrimSplit seg.text.data).length - 1) / W + 1 := by
  rw [segmentChunks_eq, chunkLoop_length,
    sliceChunks_length W hW _ (jsTrimSplit_ne_nil seg.text.data)]

/-! ### The claims about the chunking algorithm -/

/-- Claim C1: for every transcription segment with positive duration and every chunk
the segmenter emits from it, the chunk duration equals the segment duration times
(words in the window / total words in the segment); the list of chunk start times is
the segment start followed by the previous chunks' end times (running cursor), i.e.
the first chunk starts at the segment start and each subsequent chunk starts exactly
where the previous one ends. -/
theorem segmentChunks_proportional_chain (W : Nat) (hW : 1 ≤ W) (seg : Segment)
    (i : Nat) (hdur : 0 < seg.«end» - seg.start) :
    (segmentChunks W seg i).map (fun c => c.«end» - c.start)
        = (sliceChunks W (jsTrimSplit seg.text.data)).map
            (fun w => (seg.«end» - seg.start)
              * ((w.length : ℚ) / ((jsTrimSplit seg.text.data).length : ℚ)))
    ∧ (segmentChunks W seg i).map Chunk.start
        = seg.start :: ((segmentChunks W seg i).map Chunk.«end»).dropLast := by
  constructor
  · rw [segmentChunks_eq]
    exact chunkLoop_map_duration _ _ _ _ _
  · rw [segmentChunks_eq]
    exact chunkLoop_map_start_chain _ _ _ _ _
      (sliceChunks_ne_nil W hW _ (jsTrimSplit_ne_nil seg.text.data))

/-- The transcription segment of Scenario A in the spec: six words over three
seconds. -/
def scenarioASegment : Segment :=
  { start := 0, «end» := 3, text := "the quick brown fox jumps over" }

/-- Witness for C1: Scenario A, window size 4, positive duration discharged. -/
theorem segmentChunks_proportional_chain_witness :
    (1 ≤ 4 ∧ (0 : ℚ) < scenarioASegment.«end» - scenarioASegment.start)
    ∧ ((segmentChunks 4 scenarioASegment 1).map (fun c => c.«end» - c.start)
          = (sliceChunks 4 (jsTrimSplit scenarioASegment.text.data)).map
              (fun w => (scenarioASegment.«end» - scenarioASegment.start)
                * ((w.length : ℚ)
                    / ((jsTrimSplit scenarioASegment.text.data).length : ℚ)))
      ∧ (segmentChunks 4 scenarioASegment 1).map Chunk.start
          = scenarioASegment.start
            :: ((segmentChunks 4 scenarioASegment 1).map Chunk.«end»).dropLast) :=
  ⟨⟨by norm_num, by norm_num [scenarioASegment]⟩,
    segmentChunks_proportional_chain 4 (by norm_num) scenarioASegment 1
      (by norm_num [scenarioASegment])⟩

/-- Claim C2: a segment with N whitespace-split words and window size W yields
exactly ceil(N / W) = (N + W - 1) / W chunks, whose time intervals tile
[segment.start, segment.end] exactly: their union is the whole interval and they
overlap at most at their endpoints (each earlier chunk ends no later than any later
chunk starts).  Exact rational arithmetic, so no floating-point tolerance is
needed. -/
theorem segmentChunks_count_coverage (W : Nat) (hW : 1 ≤ W) (seg : Segment) (i : Nat)
    (hdur : seg.start ≤ seg.«end») :
    (segmentChunks W seg i).length
        = ((jsTrimSplit seg.text.data).length + W - 1) / W
    ∧ (⋃ c ∈ segmentChunks W seg i, Set.Icc c.start c.«end»)
        = Set.Icc seg.start seg.«end»
    ∧ List.Pairwise (fun a b => a.«end» ≤ b.start) (segmentChunks W seg i) := by
  have hN : 0 < (jsTrimSplit seg.text.data).length :=
    jsTrimSplit_length_pos seg.text.data
  have hdur' : (0 : ℚ) ≤ seg.«end» - seg.start := sub_nonneg.2 hdur
  refine ⟨?_, ?_, ?_⟩
  · rw [segmentChunks_length W hW seg i]
    have hsplit : (jsTrimSplit seg.text.data).length + W - 1
        = ((jsTrimSplit seg.text.data).length - 1) + W := by omega
    rw [hsplit, Nat.add_div_right _ (by omega)]
  · rw [segmentChunks_eq,
      chunkLoop_biUnion _ hdur' _ _ seg.start i
        (sliceChunks_ne_nil W hW _ (jsTrimSplit_ne_nil seg.text.data)),
      sliceChunks_sum_length W hW]
    rw [div_self (Nat.cast_ne_zero.2 (by omega) : ((jsTrimSplit seg.text.data).length : ℚ) ≠ 0)]
    rw [mul_one, add_sub_cancel]
  · rw [List.pairwise_iff_getElem]
    intro a b ha hb hab
    have hb' : a + 1 < (segmentChunks W seg i).length := by omega
    have hA : (segmentChunks W seg i)[a]? = some (segmentChunks W seg i)[a] :=
      List.getElem?_eq_getElem ha
    have hB : (segmentChunks W seg i)[b]? = some (segmentChunks W seg i)[b] :=
      List.getElem?_eq_getElem hb
    have hM : (segmentChunks W seg i)[a + 1]? = some (segmentChunks W seg i)[a + 1] :=
      List.getElem?_eq_getElem hb'
    generalize hca : (segmentChunks W seg i)[a] = cA at hA ⊢
    generalize hcb : (segmentChunks W seg i)[b] = cB at hB ⊢
    generalize hcm : (segmentChunks W seg i)[a + 1] = cM at hM
    rw [segmentChunks_eq] at hA hB hM
    have hchain := chunkLoop_getElem?_chain (seg.«end» - seg.start)
      (jsTrimSplit seg.text.data).length _ seg.start i a _ _ hA hM
    have hmono := chunkLoop_getElem?_start_mono (seg.«end» - seg.start) hdur'
      (jsTrimSplit seg.text.data).length _ seg.start i (a + 1) b _ _
      (by omega) hM hB
    rw [← hchain]
    exact hmono

/-- Witness for C2: Scenario A, window size 4; 6 words give 2 chunks tiling
[0, 3]. -/
theorem segmentChunks_count_coverage_witness :
    (1 ≤ 4 ∧ scenarioASegment.start ≤ scenarioASegment.«end»)
    ∧ ((segmentChunks 4 scenarioASegment 1).length
          = ((jsTrimSplit scenarioASegment.text.data).length + 4 - 1) / 4
      ∧ (⋃ c ∈ segmentChunks 4 scenarioASegment 1, Set.Icc c.start c.«end»)
          = Set.Icc scenarioASegment.start scenarioASegment.«end»
      ∧ List.Pairwise (fun a b => a.«end» ≤ b.start)
          (segmentChunks 4 scenarioASegment 1)) :=
  ⟨⟨by norm_num, by norm_num [scenarioASegment]⟩,
    segmentChunks_count_coverage 4 (by norm_num) scenarioASegment 1
      (by norm_num [scenarioASegment])⟩

theorem segmentsChunks_map_index (W : Nat) :
    ∀ (segs : List Segment) (i : Nat),
      (segmentsChunks W segs i).map Chunk.index
        = List.range' i (segmentsChunks W segs i).length := by
  intro segs
  induction segs with
  | nil => intro i; rfl
  | cons seg rest ih =>
    intro i
    show ((segmentChunks W seg i)
        ++ segmentsChunks W rest (i + (segmentChunks W seg i).length)).map Chunk.index
      = List.range' i ((segmentChunks W seg i)
        ++ segmentsChunks W rest (i + (segmentChunks W seg i).length)).length
    have h1 : (segmentChunks W seg i).map Chunk.index
        = List.range' i (segmentChunks W seg i).length := by
      rw [segmentChunks_eq, chunkLoop_map_index, chunkLoop_length]
    rw [List.map_append, h1, ih, List.length_append]
    have h2 := List.range'_append i (segmentChunks W seg i).length
      (segmentsChunks W rest (i + (segmentChunks W seg i).length)).length 1
    rw [one_mul] at h2
    rw [Nat.add_comm ((segmentChunks W seg i).length)
      ((segmentsChunks W rest (i + (segmentChunks W seg i).length)).length)]
    exact h2

/-- Claim C3: across the whole track, the emitted chunk indices are exactly
1, 2, 3, ...: the index list equals `List.range' 1 n` (first index 1, each next
index one greater), independently of how chunks distribute over segments.
This holds for any window size; `draftTrack` is the index.js instantiation. -/
theorem track_indices_consecutive (W : Nat) (segs : List Segment) :
    (segmentsChunks W segs 1).map Chunk.index
      = List.range' 1 (segmentsChunks W segs 1).length :=
  segmentsChunks_map_index W segs 1

/-! ### The empty-word-list guard is unreachable: whitespace-only segments -/

theorem jsTrimSplit_of_trim_nil (l : List Char) (h : trimList l = []) :
    jsTrimSplit l = [[]] := by
  unfold jsTrimSplit
  rw [h]
  rfl

theorem sliceChunksGo_succ_cons {α : Type} (W fuel : Nat) (x : α) (xs : List α) :
    sliceChunksGo W (fuel + 1) (x :: xs)
      = (x :: xs).take W :: sliceChunksGo W fuel ((x :: xs).drop W) := rfl

theorem sliceChunks_singleton {α : Type} (W : Nat) (hW : 1 ≤ W) (x : α) :
    sliceChunks W [x] = [[x]] := by
  unfold sliceChunks
  rw [List.length_singleton, sliceChunksGo_succ_cons,
    List.take_of_length_le (by simpa using hW),
    List.drop_eq_nil_iff.2 (by simpa using hW)]
  rfl

/-- A segment whose text trims to the empty string is not skipped: JS split turns
it into the single word `""`, so exactly one chunk is emitted, spanning the whole
segment, with empty display text, and it consumes one global index. -/
theorem segmentChunks_of_trim_nil (W : Nat) (hW : 1 ≤ W) (seg : Segment) (i : Nat)
    (h : trimList seg.text.data = []) :
    segmentChunks W seg i
      = [{ index := i, start := seg.start,
           «end» := seg.start + (seg.«end» - seg.start) * ((1 : ℚ) / (1 : ℚ)),
           text := "" }] := by
  rw [segmentChunks_eq, jsTrimSplit_of_trim_nil seg.text.data h,
    sliceChunks_singleton W hW]
  rw [chunkLoop_cons_eq]
  norm_num [chunkLoop]
  rfl

/-- Claim C5 is contradicted by the code: the segment with whitespace-only text
`"   "` (whose JS word list is `[""]`, not the empty list, so the
`totalWords === 0` guard cannot fire) is not skipped.  The segmenter emits one
chunk for it — empty display text, spanning the whole segment — and the global
index advances past it. -/
theorem whitespace_only_segment_emits_chunk :
    segmentChunks maxWordsPerChunk { start := 0, «end» := 2, text := "   " } 5
        = [{ index := 5, start := 0, «end» := 2, text := "" }]
    ∧ (segmentChunks maxWordsPerChunk { start := 0, «end» := 2, text := "   " } 5).length
        = 1 := by
  have h : trimList ("   " : String).data = [] := by decide
  have := segmentChunks_of_trim_nil maxWordsPerChunk (by norm_num [maxWordsPerChunk])
    { start := 0, «end» := 2, text := "   " } 5 h
  rw [this]
  norm_num

/-! ### Claim C10: chunking preserves the words of the segment text -/

/-- Specification-side definition for claim C10 (written from the claim's words,
for comparison with the program): the input with every maximal whitespace run
replaced by a single space character. -/
def collapse : List Char → List Char
  | [] => []
  | c :: cs =>
    if isWS c then
      match cs with
      | [] => [' ']
      | d :: _ => if isWS d then collapse cs else ' ' :: collapse cs
    else c :: collapse cs

theorem spaceJoin_cons_of_ne_nil (w : List Char) (ws : List (List Char))
    (hws : ws ≠ []) : spaceJoin (w :: ws) = w ++ ' ' :: spaceJoin ws := by
  cases ws with
  | nil => exact absurd rfl hws
  | cons w1 ws' => rfl

theorem spaceJoin_cons_cons (c : Char) (w : List Char) (ws : List (List Char)) :
    spaceJoin ((c :: w) :: ws) = c :: spaceJoin (w :: ws) := by
  cases ws with
  | nil => rfl
  | cons w1 ws' => rfl

theorem splitWS_cons_cons (c d : Char) (cs' : List Char) :
    splitWS (c :: d :: cs')
      = if isWS c then splitWS (d :: cs')
        else if isWS d then [c] :: splitWS (d :: cs')
        else
          match splitWS (d :: cs') with
          | [] => [[c]]
          | w :: ws => (c :: w) :: ws := rfl

theorem collapse_cons_cons (c d : Char) (cs' : List Char) :
    collapse (c :: d :: cs')
      = if isWS c then
          (if isWS d then collapse (d :: cs') else ' ' :: collapse (d :: cs'))
        else c :: collapse (d :: cs') := rfl

theorem splitWS_ne_nil_of_last (l : List Char) (hne : l ≠ [])
    (hl : ∀ e, l.getLast? = some e → isWS e = false) : splitWS l ≠ [] := by
  intro h0
  have hall := (splitWS_eq_nil_iff l).1 h0
  have hlw := hl (l.getLast hne) (List.getLast?_eq_getLast l hne)
  exact absurd (hall _ (List.getLast_mem hne)) (by simp [hlw])

theorem collapse_cons_aux :
    ∀ (cs : List Char) (c : Char),
      (∀ e, (c :: cs).getLast? = some e → isWS e = false) →
      collapse (c :: cs)
        = (if isWS c then ' ' :: spaceJoin (splitWS (c :: cs))
           else spaceJoin (splitWS (c :: cs))) := by
  intro cs
  induction cs with
  | nil =>
    intro c hlast
    have hc : isWS c = false := hlast c rfl
    simp [collapse, splitWS, spaceJoin, hc]
  | cons d cs' ih =>
    intro c hlast
    have hlast' : ∀ e, (d :: cs').getLast? = some e → isWS e = false := by
      intro e he
      exact hlast e (by rwa [List.getLast?_cons_cons])
    have hihd := ih d hlast'
    by_cases hc : isWS c = true
    · rw [if_pos hc]
      have hsp : splitWS (c :: d :: cs') = splitWS (d :: cs') := by
        rw [splitWS_cons_cons, if_pos hc]
      by_cases hd : isWS d = true
      · have hcol : collapse (c :: d :: cs') = collapse (d :: cs') := by
          rw [collapse_cons_cons, if_pos hc, if_pos hd]
        rw [hcol, hsp, hihd, if_pos hd]
      · have hcol : collapse (c :: d :: cs') = ' ' :: collapse (d :: cs') := by
          rw [collapse_cons_cons, if_pos hc, if_neg hd]
        rw [hcol, hsp, hihd, if_neg hd]
    · have hcol : collapse (c :: d :: cs') = c :: collapse (d :: cs') := by
        rw [collapse_cons_cons, if_neg hc]
      rw [if_neg hc]
      by_cases hd : isWS d = true
      · have hr : splitWS (c :: d :: cs') = [c] :: splitWS (d :: cs') := by
          rw [splitWS_cons_cons, if_neg hc, if_pos hd]
        have hrne : splitWS (d :: cs') ≠ [] :=
          splitWS_ne_nil_of_last (d :: cs') (List.cons_ne_nil d cs') hlast'
        rw [hcol, hr, spaceJoin_cons_of_ne_nil _ _ hrne, hihd, if_pos hd]
        rfl
      · have hd' : isWS d = false := by simpa using hd
        have hrne : splitWS (d :: cs') ≠ [] := splitWS_ne_nil_of_head d cs' hd'
        obtain ⟨w, ws, hsp⟩ : ∃ w ws, splitWS (d :: cs') = w :: ws := by
          cases hx : splitWS (d :: cs') with
          | nil => exact absurd hx hrne
          | cons w ws => exact ⟨w, ws, rfl⟩
        have hr : splitWS (c :: d :: cs') = (c :: w) :: ws := by
          rw [splitWS_cons_cons, if_neg hc, if_neg hd, hsp]
        rw [hcol, hr, spaceJoin_cons_cons, ← hsp, hihd, if_neg hd]

theorem collapse_eq_spaceJoin (t : List Char)
    (hh : ∀ e, t.head? = some e → isWS e = false)
    (hl : ∀ e, t.getLast? = some e → isWS e = false) :
    collapse t = spaceJoin (splitWS t) := by
  cases t with
  | nil => rfl
  | cons c cs =>
    have hc : isWS c = false := hh c rfl
    rw [collapse_cons_aux cs c hl, if_neg (by simp [hc])]

theorem spaceJoin_append (p q : List (List Char)) (hp : p ≠ []) (hq : q ≠ []) :
    spaceJoin (p ++ q) = spaceJoin p ++ ' ' :: spaceJoin q := by
  induction p with
  | nil => exact absurd rfl hp
  | cons w p' ih =>
    cases p' with
    | nil =>
      rw [List.singleton_append, spaceJoin_cons_of_ne_nil w q hq]
      rfl
    | cons w1 p'' =>
      have hne : (w1 :: p'') ++ q ≠ [] := by simp
      rw [List.cons_append, spaceJoin_cons_of_ne_nil _ _ hne,
        ih (List.cons_ne_nil w1 p''),
        spaceJoin_cons_of_ne_nil _ _ (List.cons_ne_nil w1 p'')]
      simp [List.append_assoc]

theorem flatten_ne_nil_of_pieces (P : List (List (List Char))) (hP : [] ∉ P)
    (hne : P ≠ []) : P.flatten ≠ [] := by
  cases P with
  | nil => exact absurd rfl hne
  | cons p P' =>
    have hp : p ≠ [] := by
      intro h0
      exact hP (by rw [h0]; exact List.mem_cons_self _ _)
    simp only [List.flatten_cons]
    intro h0
    exact hp (List.append_eq_nil.1 h0).1

theorem spaceJoin_map_pieces :
    ∀ (P : List (List (List Char))), [] ∉ P →
      spaceJoin (P.map spaceJoin) = spaceJoin P.flatten := by
  intro P
  induction P with
  | nil => intro hP; rfl
  | cons p P' ih =>
    intro hP
    have hp : p ≠ [] := fun h0 => hP (by rw [h0]; exact List.mem_cons_self _ _)
    have hP' : [] ∉ P' := fun hmem => hP (List.mem_cons_of_mem _ hmem)
    cases P' with
    | nil => simp [spaceJoin]
    | cons p1 P'' =>
      have hmapne : (p1 :: P'').map spaceJoin ≠ [] := by simp
      have hflatne : (p1 :: P'').flatten ≠ [] :=
        flatten_ne_nil_of_pieces (p1 :: P'') hP' (List.cons_ne_nil p1 P'')
      calc spaceJoin ((p :: p1 :: P'').map spaceJoin)
          = spaceJoin (spaceJoin p :: (p1 :: P'').map spaceJoin) := by
            rw [List.map_cons]
        _ = spaceJoin p ++ ' ' :: spaceJoin ((p1 :: P'').map spaceJoin) :=
            spaceJoin_cons_of_ne_nil _ _ hmapne
        _ = spaceJoin p ++ ' ' :: spaceJoin ((p1 :: P'').flatten) := by
            rw [ih hP']
        _ = spaceJoin (p ++ (p1 :: P'').flatten) :=
            (spaceJoin_append _ _ hp hflatne).symm
        _ = spaceJoin ((p :: p1 :: P'').flatten) := rfl

/-- Claim C10: joining the emitted chunks' texts (in order) with single spaces
reproduces the segment's trimmed text with every whitespace run collapsed to a
single space — no word is dropped, duplicated or reordered.  (For whitespace-only
text both sides are empty.) -/
theorem chunk_texts_preserve_words (W : Nat) (hW : 1 ≤ W) (seg : Segment) (i : Nat) :
    spaceJoin ((segmentChunks W seg i).map (fun c => c.text.data))
      = collapse (trimList seg.text.data) := by
  rw [segmentChunks_eq]
  have htext : (chunkLoop (seg.«end» - seg.start) (jsTrimSplit seg.text.data).length
        (sliceChunks W (jsTrimSplit seg.text.data)) seg.start i).map
        (fun c => c.text.data)
      = (sliceChunks W (jsTrimSplit seg.text.data)).map spaceJoin := by
    have h0 := chunkLoop_get_text (seg.«end» - seg.start)
      (jsTrimSplit seg.text.data).length (sliceChunks W (jsTrimSplit seg.text.data))
      seg.start i
    have h1 : (chunkLoop (seg.«end» - seg.start) (jsTrimSplit seg.text.data).length
          (sliceChunks W (jsTrimSplit seg.text.data)) seg.start i).map
          (fun c => c.text.data)
        = ((chunkLoop (seg.«end» - seg.start) (jsTrimSplit seg.text.data).length
          (sliceChunks W (jsTrimSplit seg.text.data)) seg.start i).map
          Chunk.text).map String.data := by
      rw [List.map_map]
      rfl
    rw [h1, h0, List.map_map]
    rfl
  rw [htext,
    spaceJoin_map_pieces _ (sliceChunks_ne_nil_mem W hW (jsTrimSplit seg.text.data)),
    sliceChunks_flatten W hW]
  by_cases htrim : trimList seg.text.data = []
  · rw [jsTrimSplit_of_trim_nil _ htrim, htrim]
    rfl
  · have hjs : jsTrimSplit seg.text.data = splitWS (trimList seg.text.data) := by
      unfold jsTrimSplit
      rw [if_neg (by simpa [List.isEmpty_iff] using htrim)]
    rw [hjs]
    refine (collapse_eq_spaceJoin (trimList seg.text.data) ?_ ?_).symm
    · intro e he
      rw [List.head?_eq_head htrim, Option.some_inj] at he
      rw [← he]
      exact trimList_head_not_WS seg.text.data htrim
    · intro e he
      rw [List.getLast?_eq_getLast _ htrim, Option.some_inj] at he
      rw [← he]
      exact trimList_getLast_not_WS seg.text.data htrim

/-- Witness for C10: window size 4 on the Scenario A segment. -/
theorem chunk_texts_preserve_words_witness :
    1 ≤ 4
    ∧ spaceJoin ((segmentChunks 4 scenarioASegment 1).map (fun c => c.text.data))
        = collapse (trimList scenarioASegment.text.data) :=
  ⟨by norm_num, chunk_texts_preserve_words 4 (by norm_num) scenarioASegment 1⟩

/-! ### generateSubtitles as a whole: transcription check, correction call,
post-processing, file write (claims C4 and C6) -/

/-- The message of the error thrown when the transcription returns no
segments. -/
def transcriptionFailureMsg : String := "No transcription segments were returned."

/-- The backtick character (written by code point). -/
def tick : Char := Char.ofNat 96

def dropWS (l : List Char) : List Char := l.dropWhile isWS

/-- Does the list start with a code fence followed by `srt` (letters
case-insensitive, per the regex `i` flag)? -/
def isSrtFenceAt : List Char → Bool
  | a :: b :: c :: s :: r :: u :: _ =>
    a == tick && b == tick && c == tick
      && s.toLower == 's' && r.toLower == 'r' && u.toLower == 't'
  | _ => false

/-- Global replace of the srt code-fence pattern (fence, `srt`, then a maximal
whitespace run) by the empty string: leftmost-first scan, as JS global regex
replace.  `fuel` bounds the scan; each step consumes at least one character, so
the input length suffices. -/
def stripSrtFenceGo : Nat → List Char → List Char
  | _, [] => []
  | 0, l => l
  | fuel + 1, c :: cs =>
    if isSrtFenceAt (c :: cs) then stripSrtFenceGo fuel (dropWS (cs.drop 5))
    else c :: stripSrtFenceGo fuel cs

def stripSrtFence (l : List Char) : List Char := stripSrtFenceGo l.length l

def isTickFenceAt : List Char → Bool
  | a :: b :: c :: _ => a == tick && b == tick && c == tick
  | _ => false

/-- Global replace of bare triple-backtick fences by the empty string. -/
def stripTickFenceGo : Nat → List Char → List Char
  | _, [] => []
  | 0, l => l
  | fuel + 1, c :: cs =>
    if isTickFenceAt (c :: cs) then stripTickFenceGo fuel (cs.drop 2)
    else c :: stripTickFenceGo fuel cs

def stripTickFence (l : List Char) : List Char := stripTickFenceGo l.length l

/-- Model of `String.prototype.toUpperCase` on the characters this program works
with: ASCII plus the Czech lowercase letters of the allowed alphabet. -/
def jsToUpperChar (c : Char) : Char :=
  if c = 'č' then 'Č' else if c = 'ř' then 'Ř' else if c = 'ž' then 'Ž'
  else if c = 'ý' then 'Ý' else if c = 'á' then 'Á' else if c = 'í' then 'Í'
  else if c = 'é' then 'É' else if c = 'ě' then 'Ě' else if c = 'ó' then 'Ó'
  else if c = 'ú' then 'Ú' else if c = 'ů' then 'Ů' else if c = 'š' then 'Š'
  else if c = 'ň' then 'Ň' else if c = 'ď' then 'Ď' else if c = 'ť' then 'Ť'
  else c.toUpper

/-- Post-processing of the correction capability's response in
`generateSubtitles` (index.js): trim, strip srt fences, strip bare fences, trim
again, upper-case.  The result is what is written to the caption file. -/
def postProcess (response : String) : String :=
  String.mk
    ((trimList (stripTickFence (stripSrtFence (trimList response.data)))).map
      jsToUpperChar)

/-- `generateSubtitles` of the reconciliation revision of index.js, as a function
of the transcription result (`none` = no segment array) and of the
text-correction capability's outcome (`Except.error` = the capability call
threw).  `Except.ok` carries the final string written to the caption file;
`Except.error` means the stage throws and nothing is written.  The draft track
built from the segments is embedded into the correction prompt (input to the
external capability) and does not otherwise influence the returned value. -/
def generateSubtitles (segments : Option (List Segment))
    (fixResponse : Except String String) : Except String String :=
  match segments with
  | none => Except.error transcriptionFailureMsg
  | some segs =>
    if segs.length = 0 then Except.error transcriptionFailureMsg
    else
      let _draft := segmentsChunks maxWordsPerChunk segs 1
      match fixResponse with
      | Except.error e => Except.error e
      | Except.ok response => Except.ok (postProcess response)

/-- The caption file content after the stage runs: a thrown error leaves the
previous content in place. -/
def subtitlesFileAfter (prev : Option String) (segments : Option (List Segment))
    (fixResponse : Except String String) : Option String :=
  match generateSubtitles segments fixResponse with
  | Except.error _ => prev
  | Except.ok s => some s

/-- Claim C4: with zero transcription segments (or no segment list at all) the
subtitle stage fails with the transcription failure and the caption file is left
unchanged, whatever the correction capability would have answered. -/
theorem zero_segments_fail (prev : Option String)
    (fixResponse : Except String String) :
    generateSubtitles none fixResponse = Except.error transcriptionFailureMsg
    ∧ generateSubtitles (some []) fixResponse = Except.error transcriptionFailureMsg
    ∧ subtitlesFileAfter prev none fixResponse = prev
    ∧ subtitlesFileAfter prev (some []) fixResponse = prev :=
  ⟨rfl, rfl, rfl, rfl⟩

/-- Claim C6 is contradicted by the code: with a nonempty transcription and an
empty correction response, the stage does not fail — it returns successfully and
the empty string is written as the final caption file. -/
theorem empty_correction_response_accepted :
    generateSubtitles (some [scenarioASegment]) (Except.ok "") = Except.ok ""
    ∧ subtitlesFileAfter (some "previous contents") (some [scenarioASegment])
        (Except.ok "") = some "" :=
  ⟨rfl, rfl⟩

/-- Claim C6 amended: the reconciliation stage fails when the correction
capability call itself throws (the error propagates), but an empty response is
not detected: it is accepted as-is and the empty string becomes the final
caption file. -/
theorem reconciliation_error_propagates_empty_accepted (segs : List Segment)
    (hne : segs ≠ []) (e : String) :
    generateSubtitles (some segs) (Except.error e) = Except.error e
    ∧ generateSubtitles (some segs) (Except.ok "") = Except.ok "" := by
  have hlen : ¬segs.length = 0 := fun h0 => hne (List.length_eq_zero.1 h0)
  constructor
  · simp only [generateSubtitles]
    rw [if_neg hlen]
  · simp only [generateSubtitles]
    rw [if_neg hlen]
    rfl

/-- Witness for the amended C6. -/
theorem reconciliation_error_propagates_empty_accepted_witness :
    ([scenarioASegment] ≠ ([] : List Segment))
    ∧ (generateSubtitles (some [scenarioASegment]) (Except.error "capability down")
          = Except.error "capability down"
      ∧ generateSubtitles (some [scenarioASegment]) (Except.ok "")
          = Except.ok "") :=
  ⟨by simp,
    reconciliation_error_propagates_empty_accepted [scenarioASegment] (by simp)
      "capability down"⟩

/-! ### The character filter of getTextFromStudyMaterial (claim C7) -/

/-- The punctuation characters of the allowed class in the filtering regex. -/
def punctuationAllowed : List Char := ['.', ',', '!', '?', ';', ':', '(', ')']

/-- The Czech letters listed in the filtering regex of index.js (the duplicate
listing of 'ě' in the source class is collapsed). -/
def czechAllowed : List Char :=
  ['č', 'ř', 'ž', 'ý', 'á', 'í', 'é', 'ě', 'ó', 'ú', 'ů', 'š', 'ň', 'ď', 'ť']

/-- The Czech letters listed in the filtering regex of part_000 (it lacks
'š'). -/
def czechAllowedPart0 : List Char :=
  ['č', 'ř', 'ž', 'ý', 'á', 'í', 'é', 'ě', 'ó', 'ú', 'ů', 'ň', 'ď', 'ť']

/-- JS `\w` without the unicode flag: ASCII letters, digits, underscore. -/
def isWordChar (c : Char) : Bool := c.isAlphanum || c == '_'

/-- Membership in the allowed class of the regex
`[^\w\s.,!?;:()čřžýáíéěóúůšňďťě]` (index.js); the replace deletes exactly the
characters outside it. -/
def isAllowedChar (c : Char) : Bool :=
  isWordChar c || isWS c || punctuationAllowed.contains c || czechAllowed.contains c

/-- The allowed class of the part_000 regex. -/
def isAllowedCharPart0 (c : Char) : Bool :=
  isWordChar c || isWS c || punctuationAllowed.contains c
    || czechAllowedPart0.contains c

/-- `text.replace(unwantedChars, '')` of getTextFromStudyMaterial (index.js):
delete every character outside the allowed class. -/
def cleanedText (s : String) : String := String.mk (s.data.filter isAllowedChar)

/-- The part_000 variant of the filter. -/
def cleanedTextPart0 (s : String) : String :=
  String.mk (s.data.filter isAllowedCharPart0)

/-- Claim C7: the character filtering of the Script Synthesizer is idempotent,
in both source revisions of the filter. -/
theorem cleanedText_idempotent (s : String) :
    cleanedText (cleanedText s) = cleanedText s
    ∧ cleanedTextPart0 (cleanedTextPart0 s) = cleanedTextPart0 s := by
  constructor
  · show String.mk ((s.data.filter isAllowedChar).filter isAllowedChar)
        = String.mk (s.data.filter isAllowedChar)
    rw [List.filter_filter]
    exact congrArg String.mk
      (List.filter_congr fun a _ => by rw [Bool.and_self])
  · show String.mk ((s.data.filter isAllowedCharPart0).filter isAllowedCharPart0)
        = String.mk (s.data.filter isAllowedCharPart0)
    rw [List.filter_filter]
    exact congrArg String.mk
      (List.filter_congr fun a _ => by rw [Bool.and_self])

/-! ### createFinalVideo: probing and the original_size fallback (claim C8) -/

/-- One stream record of the probe metadata; width and height can be absent. -/
structure StreamInfo where
  codec_type : String
  width : Option Nat
  height : Option Nat
deriving DecidableEq

/-- The probe result handed to the callback: its stream list. -/
structure ProbeMetadata where
  streams : List StreamInfo
deriving DecidableEq

/-- JS `x || d` for a number-or-undefined value: undefined and 0 are falsy. -/
def jsOrNat (x : Option Nat) (d : Nat) : Nat :=
  match x with
  | none => d
  | some 0 => d
  | some n => n

/-- `createFinalVideo` of index.js as a function of the probe outcome (`none` =
ffprobe reported an error): the `original_size` used in the subtitle filter, or
`none` when the function returns early — on probe error or when no stream has
`codec_type === "video"` — so the rendering engine is never invoked. -/
def createFinalVideoSize (probe : Option ProbeMetadata) :
    Option (Option Nat × Option Nat) :=
  match probe with
  | none => none
  | some metadata =>
    match metadata.streams.find? (fun s => s.codec_type == "video") with
    | none => none
    | some videoStream => some (videoStream.width, videoStream.height)

/-- `createFinalVideo` of part_000: width and height start at the defaults
1920×1080 and are overridden by `streams[0]` only when probing succeeded and the
entry holds truthy values; rendering always proceeds with this
`original_size`. -/
def createFinalVideoSizePart0 (probe : Option ProbeMetadata) : Nat × Nat :=
  match probe with
  | none => (1920, 1080)
  | some metadata =>
    match metadata.streams.head? with
    | none => (1920, 1080)
    | some s0 => (jsOrNat s0.width 1920, jsOrNat s0.height 1080)

/-- Claim C8 is contradicted by the index.js assembler: on a probe error, and
likewise when the metadata has no streams, createFinalVideo returns before
invoking the renderer — there is no fallback resolution and no render. -/
theorem probe_failure_aborts_index :
    createFinalVideoSize none = none
    ∧ createFinalVideoSize (some (ProbeMetadata.mk [])) = none :=
  ⟨rfl, rfl⟩

/-- Claim C8 amended: the fallback behaviour belongs to the part_000 revision
only — there, a probe error or an empty stream list falls back to 1920×1080 and
rendering still proceeds — while the index.js revision aborts on probe
failure. -/
theorem probe_fallback_part0 (m : ProbeMetadata) (hm : m.streams = []) :
    createFinalVideoSizePart0 none = (1920, 1080)
    ∧ createFinalVideoSizePart0 (some m) = (1920, 1080)
    ∧ createFinalVideoSize none = none := by
  refine ⟨rfl, ?_, rfl⟩
  simp only [createFinalVideoSizePart0, hm]
  rfl

/-- Witness for the amended C8. -/
theorem probe_fallback_part0_witness :
    (ProbeMetadata.mk []).streams = []
    ∧ (createFinalVideoSizePart0 none = (1920, 1080)
      ∧ createFinalVideoSizePart0 (some (ProbeMetadata.mk [])) = (1920, 1080)
      ∧ createFinalVideoSize none = none) :=
  ⟨rfl, probe_fallback_part0 (ProbeMetadata.mk []) rfl⟩

/-! ### formatTime (claim C9) -/

/-- Truncation toward zero: the quotient implicit in the JS `%` operator. -/
def jsTrunc (q : ℚ) : ℤ := if 0 ≤ q then ⌊q⌋ else ⌈q⌉

/-- The JS remainder `a % b` = `a - b * trunc(a / b)`. -/
def jsMod (a b : ℚ) : ℚ := a - b * (jsTrunc (a / b) : ℚ)

/-- JS `String.prototype.padStart(n, c)`: left-pad to length at least `n`. -/
def padStart (s : String) (n : Nat) (c : Char) : String :=
  String.mk (List.replicate (n - s.length) c ++ s.data)

/-- `formatTime`: seconds (a JS number, modelled exactly) to the SRT time string
`HH:MM:SS,mmm`. -/
def formatTime (seconds : ℚ) : String :=
  let hrs : ℤ := ⌊seconds / 3600⌋
  let mins : ℤ := ⌊jsMod seconds 3600 / 60⌋
  let secs : ℤ := ⌊jsMod seconds 60⌋
  let ms : ℤ := ⌊(seconds - (⌊seconds⌋ : ℚ)) * 1000⌋
  padStart (toString hrs) 2 '0' ++ ":" ++ padStart (toString mins) 2 '0' ++ ":"
    ++ padStart (toString secs) 2 '0' ++ "," ++ padStart (toString ms) 3 '0'

theorem intFloor_eq_natFloor (q : ℚ) (h : 0 ≤ q) : ⌊q⌋ = (⌊q⌋₊ : ℤ) := by
  rw [← Int.floor_toNat, Int.toNat_of_nonneg (Int.floor_nonneg.2 h)]

theorem natFloor_div_rat (q : ℚ) (k : ℕ) : ⌊q / (k : ℚ)⌋₊ = ⌊q⌋₊ / k :=
  Nat.floor_div_nat q k

theorem toString_natCast_int (k : ℕ) : toString ((k : ℤ)) = toString k := rfl

theorem padStart_length (s : String) (n : Nat) (c : Char) :
    (padStart s n c).length = (n - s.length) + s.length := by
  show (List.replicate (n - s.length) c ++ s.data).length = _
  rw [List.length_append, List.length_replicate]
  rfl

set_option maxRecDepth 4096 in
theorem natRepr_length_le_two : ∀ k : ℕ, k < 100 → (toString k).length ≤ 2 := by
  decide

set_option maxRecDepth 40000 in
theorem natRepr_length_le_three : ∀ k : ℕ, k < 1000 → (toString k).length ≤ 3 := by
  decide

/-- Claim C9: for nonnegative seconds below one hundred hours, formatTime
produces exactly `HH:MM:SS,mmm` — hours, minutes and seconds zero-padded to two
digits, a comma, milliseconds zero-padded to three digits, twelve characters in
all — and the four fields jointly encode the input truncated to milliseconds:
`((3600 H + 60 M + S) 1000 + ms) = floor(q * 1000)`. -/
theorem formatTime_spec (q : ℚ) (h0 : 0 ≤ q) (h1 : q < 360000) :
    ∃ H M S ms : ℕ, H < 100 ∧ M < 60 ∧ S < 60 ∧ ms < 1000
      ∧ ((3600 * H + 60 * M + S) * 1000 + ms : ℤ) = ⌊q * 1000⌋
      ∧ formatTime q
          = padStart (toString H) 2 '0' ++ ":" ++ padStart (toString M) 2 '0' ++ ":"
            ++ padStart (toString S) 2 '0' ++ "," ++ padStart (toString ms) 3 '0'
      ∧ (formatTime q).length = 12 := by
  obtain ⟨n, hn⟩ : ∃ n : ℕ, ⌊q * 1000⌋₊ = n := ⟨_, rfl⟩
  obtain ⟨m, hm⟩ : ∃ m : ℕ, ⌊q⌋₊ = m := ⟨_, rfl⟩
  have hq1000 : (0 : ℚ) ≤ q * 1000 := by positivity
  have hfq : ⌊q⌋ = (m : ℤ) := by rw [intFloor_eq_natFloor q h0, hm]
  have hfq1000 : ⌊q * 1000⌋ = (n : ℤ) := by
    rw [intFloor_eq_natFloor _ hq1000, hn]
  have hmn : m = n / 1000 := by
    rw [← hm, ← hn]
    conv_lhs => rw [show q = q * 1000 / ((1000 : ℕ) : ℚ) by push_cast; ring]
    rw [natFloor_div_rat]
  have hn_lt : n < 360000000 := by
    rw [← hn, Nat.floor_lt hq1000]
    push_cast
    linarith
  have hq3600 : ⌊q / (3600 : ℚ)⌋₊ = m / 3600 := by
    rw [show (3600 : ℚ) = ((3600 : ℕ) : ℚ) by norm_num, natFloor_div_rat, hm]
  have hq60 : ⌊q / (60 : ℚ)⌋₊ = m / 60 := by
    rw [show (60 : ℚ) = ((60 : ℕ) : ℚ) by norm_num, natFloor_div_rat, hm]
  -- the hours component
  have hHrs : ⌊q / 3600⌋ = ((m / 3600 : ℕ) : ℤ) := by
    rw [intFloor_eq_natFloor _ (by positivity), hq3600]
  have hfl60 : ⌊q / 60⌋ = ((m / 60 : ℕ) : ℤ) := by
    rw [intFloor_eq_natFloor _ (by positivity), hq60]
  -- floor-of-quotient bounds, needed for nonnegativity of the remainders
  have hH_le : ((3600 * (m / 3600) : ℕ) : ℚ) ≤ q := by
    have h2 := Nat.floor_le (show (0 : ℚ) ≤ q / 3600 by positivity)
    rw [hq3600, le_div_iff (by norm_num : (0 : ℚ) < (3600 : ℚ))] at h2
    push_cast at h2 ⊢
    linarith
  have hS_le : ((60 * (m / 60) : ℕ) : ℚ) ≤ q := by
    have h2 := Nat.floor_le (show (0 : ℚ) ≤ q / 60 by positivity)
    rw [hq60, le_div_iff (by norm_num : (0 : ℚ) < (60 : ℚ))] at h2
    push_cast at h2 ⊢
    linarith
  -- the seconds component
  have hSecs : ⌊jsMod q 60⌋ = ((m - 60 * (m / 60) : ℕ) : ℤ) := by
    have htr : jsTrunc (q / 60) = ⌊q / 60⌋ := if_pos (by positivity)
    rw [jsMod, htr, hfl60]
    rw [show q - (60 : ℚ) * (((m / 60 : ℕ) : ℤ) : ℚ)
        = q - ((60 * (m / 60) : ℕ) : ℚ) by norm_cast]
    rw [intFloor_eq_natFloor _ (by rw [sub_nonneg]; exact hS_le),
      Nat.floor_sub_nat, hm]
  -- the minutes component
  have hMins : ⌊jsMod q 3600 / 60⌋ = (((m - 3600 * (m / 3600)) / 60 : ℕ) : ℤ) := by
    have htr : jsTrunc (q / 3600) = ⌊q / 3600⌋ := if_pos (by positivity)
    rw [jsMod, htr, hHrs]
    rw [show q - (3600 : ℚ) * (((m / 3600 : ℕ) : ℤ) : ℚ)
        = q - ((3600 * (m / 3600) : ℕ) : ℚ) by norm_cast]
    have hsubnn : (0 : ℚ) ≤ q - ((3600 * (m / 3600) : ℕ) : ℚ) := by
      rw [sub_nonneg]; exact hH_le
    rw [intFloor_eq_natFloor _ (by positivity),
      show (60 : ℚ) = ((60 : ℕ) : ℚ) by norm_num, natFloor_div_rat,
      Nat.floor_sub_nat, hm]
  -- the milliseconds component
  have hmq : ((1000 * m : ℕ) : ℚ) ≤ q * 1000 := by
    have h2 := Nat.floor_le h0
    rw [hm] at h2
    push_cast at h2 ⊢
    linarith
  have hMs : ⌊(q - (⌊q⌋ : ℚ)) * 1000⌋ = ((n - 1000 * m : ℕ) : ℤ) := by
    rw [hfq]
    rw [show (q - ((m : ℤ) : ℚ)) * 1000 = q * 1000 - ((1000 * m : ℕ) : ℚ) by
      push_cast; ring]
    rw [intFloor_eq_natFloor _ (by rw [sub_nonneg]; exact hmq),
      Nat.floor_sub_nat, hn]
  refine ⟨m / 3600, (m - 3600 * (m / 3600)) / 60, m - 60 * (m / 60), n - 1000 * m,
    ?_, ?_, ?_, ?_, ?_, ?_, ?_⟩
  · omega
  · omega
  · omega
  · omega
  · rw [hfq1000]
    push_cast
    omega
  · show padStart (toString ⌊q / 3600⌋) 2 '0' ++ ":"
        ++ padStart (toString ⌊jsMod q 3600 / 60⌋) 2 '0' ++ ":"
        ++ padStart (toString ⌊jsMod q 60⌋) 2 '0' ++ ","
        ++ padStart (toString ⌊(q - (⌊q⌋ : ℚ)) * 1000⌋) 3 '0' = _
    rw [hHrs, hMins, hSecs, hMs, toString_natCast_int, toString_natCast_int,
      toString_natCast_int, toString_natCast_int]
  · show (padStart (toString ⌊q / 3600⌋) 2 '0' ++ ":"
        ++ padStart (toString ⌊jsMod q 3600 / 60⌋) 2 '0' ++ ":"
        ++ padStart (toString ⌊jsMod q 60⌋) 2 '0' ++ ","
        ++ padStart (toString ⌊(q - (⌊q⌋ : ℚ)) * 1000⌋) 3 '0').length = 12
    rw [hHrs, hMins, hSecs, hMs, toString_natCast_int, toString_natCast_int,
      toString_natCast_int, toString_natCast_int]
    have lenH := natRepr_length_le_two (m / 3600) (by omega)
    have lenM := natRepr_length_le_two ((m - 3600 * (m / 3600)) / 60) (by omega)
    have lenS := natRepr_length_le_two (m - 60 * (m / 60)) (by omega)
    have lenMs := natRepr_length_le_three (n - 1000 * m) (by omega)
    simp only [String.length_append, padStart_length]
    have lenColon : (":" : String).length = 1 := rfl
    have lenComma : ("," : String).length = 1 := rfl
    rw [lenColon, lenComma]
    omega

/-- Witness for C9 at 3661.5 seconds (01:01:01,500). -/
theorem formatTime_spec_witness :
    ((0 : ℚ) ≤ 7323 / 2 ∧ (7323 / 2 : ℚ) < 360000)
    ∧ ∃ H M S ms : ℕ, H < 100 ∧ M < 60 ∧ S < 60 ∧ ms < 1000
      ∧ ((3600 * H + 60 * M + S) * 1000 + ms : ℤ) = ⌊(7323 / 2 : ℚ) * 1000⌋
      ∧ formatTime (7323 / 2)
          = padStart (toString H) 2 '0' ++ ":" ++ padStart (toString M) 2 '0' ++ ":"
            ++ padStart (toString S) 2 '0' ++ "," ++ padStart (toString ms) 3 '0'
      ∧ (formatTime (7323 / 2)).length = 12 :=
  ⟨⟨by norm_num, by norm_num⟩,
    formatTime_spec (7323 / 2) (by norm_num) (by norm_num)⟩

end Brainrot
